import Mathlib

/-!
Verification of the gini-impurity function from
`notebooks/trees/gini-impurity.ipynb`:

```python
def gini(y):
    _, counts = np.unique(y, return_counts=True)
    p = counts / len(y)
    return 1 - np.sum( p**2 )
```

The embedding models label sequences as Lean lists over a linearly ordered
label type (`np.unique` sorts, so labels must be comparable) and the
floating-point arithmetic as exact rational arithmetic.
-/

namespace GiniImpurity

/-- Embedding of `np.unique(y, return_counts=True)`: the sorted list of the
distinct values occurring in `y`, paired with the list of their occurrence
counts in `y`, in the same (sorted) order. -/
def npUnique {α : Type} [LinearOrder α] (y : List α) : List α × List ℕ :=
  let vals := y.toFinset.sort (· ≤ ·)
  (vals, vals.map (fun a => y.count a))

/-- Embedding of the notebook's `gini`: take the counts from `np.unique`,
divide each by `len(y)` to get the probability vector `p`, and return
`1 - np.sum(p**2)`. Rationals stand in for Python floats; every quantity in
the claims is exactly representable. -/
def gini {α : Type} [LinearOrder α] (y : List α) : ℚ :=
  let counts := (npUnique y).2
  let p := counts.map (fun c : ℕ => (c : ℚ) / (y.length : ℚ))
  1 - (p.map (fun x => x ^ 2)).sum

/-- The spec's formula, written the way the spec states it: 1 minus the sum,
over each distinct label value `a` appearing in `y`, of the squared empirical
frequency `count(a) / len(y)`. -/
def giniFormulaSpec {α : Type} [LinearOrder α] (y : List α) : ℚ :=
  1 - ∑ a ∈ y.toFinset, ((y.count a : ℚ) / (y.length : ℚ)) ^ 2

/-- The spec's contract for `impurity`, following its words: on an empty label
sequence the Empty Input error is raised and propagated to the caller;
otherwise the formula value is returned. -/
def impuritySpec {α : Type} [LinearOrder α] (y : List α) : Except String ℚ :=
  if y = [] then Except.error "Empty Input" else Except.ok (giniFormulaSpec y)

/-- The sorted traversal order produced by `np.unique` is irrelevant to the
final sum: `gini` equals 1 minus the finset sum of squared frequencies over
the distinct labels. -/
theorem gini_eq_finsetSum {α : Type} [LinearOrder α] (y : List α) :
    gini y = 1 - ∑ a ∈ y.toFinset, ((y.count a : ℚ) / (y.length : ℚ)) ^ 2 := by
  unfold gini npUnique
  simp only [List.map_map]
  congr 1
  rw [← List.sum_toFinset _ (Finset.sort_nodup _ _), Finset.sort_toFinset]
  rfl

/-- The empirical frequencies of the distinct labels of a non-empty list sum
to 1. -/
theorem sum_count_div_length {α : Type} [LinearOrder α] (y : List α) (h : y ≠ []) :
    ∑ a ∈ y.toFinset, ((y.count a : ℚ) / (y.length : ℚ)) = 1 := by
  have hlen : y.length ≠ 0 := fun hl => h (List.length_eq_zero.1 hl)
  have hlenQ : ((y.length : ℚ)) ≠ 0 := Nat.cast_ne_zero.2 hlen
  rw [← Finset.sum_div]
  rw [show ∑ a ∈ y.toFinset, ((y.count a : ℚ)) = ((∑ a ∈ y.toFinset, y.count a : ℕ) : ℚ) by
    push_cast; rfl]
  rw [List.sum_toFinset_count_eq_length, div_self hlenQ]

/-- C1: for every non-empty label sequence `y`, `gini y` equals the spec's
formula: 1 minus the sum, over each distinct label value in `y`, of the
squared empirical frequency `count(i) / len(y)`. -/
theorem gini_matches_spec_formula {α : Type} [LinearOrder α] (y : List α)
    (h : y ≠ []) : gini y = giniFormulaSpec y := by
  rw [gini_eq_finsetSum, giniFormulaSpec]

theorem gini_matches_spec_formula_witness :
    (([0, 0, 1] : List ℤ) ≠ []) ∧
      gini ([0, 0, 1] : List ℤ) = giniFormulaSpec ([0, 0, 1] : List ℤ) :=
  ⟨by decide, gini_matches_spec_formula _ (by decide)⟩

/-- C2 counterexample: on the empty label sequence the code raises nothing.
The spec's contract (`impuritySpec`) produces the Empty Input error there,
while the code's `gini` runs through and returns the value 1: on the empty
input there are no counts, so no division is performed and no error can
arise. -/
theorem gini_empty_spec_divergence :
    impuritySpec ([] : List ℤ) = Except.error "Empty Input" ∧
      gini ([] : List ℤ) = 1 := by
  constructor
  · rfl
  · rw [gini_eq_finsetSum]
    simp

/-- C2 (amended): when called on the empty label sequence, `gini` raises no
error and returns the value 1. -/
theorem gini_empty_no_error : gini ([] : List ℤ) = 1 := by
  rw [gini_eq_finsetSum]
  simp

/-- C9: on the empty sequence `np.unique` yields an empty counts list, so the
probability list is empty, the sum is 0, and `gini` returns `1 - 0 = 1`
without any error. -/
theorem gini_empty_counts_empty :
    (npUnique ([] : List ℤ)).2 = [] ∧ gini ([] : List ℤ) = 1 := by
  constructor
  · simp [npUnique, Finset.sort_empty]
  · rw [gini_eq_finsetSum]
    simp

/-- C7: the spec's concrete scenarios: `gini [0,0,0,0] = 0`,
`gini [0,0,1,1] = 1/2` and `gini [0,0,0,1] = 3/8 = 0.375`. -/
theorem gini_concrete_scenarios :
    gini ([0, 0, 0, 0] : List ℤ) = 0 ∧ gini ([0, 0, 1, 1] : List ℤ) = 1 / 2 ∧
      gini ([0, 0, 0, 1] : List ℤ) = 3 / 8 := by
  refine ⟨?_, ?_, ?_⟩
  · rw [gini_eq_finsetSum]
    rw [show ([0, 0, 0, 0] : List ℤ).toFinset = {0} by decide, Finset.sum_singleton]
    norm_num
  · rw [gini_eq_finsetSum]
    rw [show ([0, 0, 1, 1] : List ℤ).toFinset = {0, 1} by decide,
      Finset.sum_insert (by decide), Finset.sum_singleton]
    norm_num
  · rw [gini_eq_finsetSum]
    rw [show ([0, 0, 0, 1] : List ℤ).toFinset = {0, 1} by decide,
      Finset.sum_insert (by decide), Finset.sum_singleton]
    norm_num

/-- C5: `gini` is invariant under any permutation of the input: it depends
only on the multiset of label values, not on their order. -/
theorem gini_perm_invariant {α : Type} [LinearOrder α] (y yp : List α)
    (h : y ≠ []) (hp : y.Perm yp) : gini yp = gini y := by
  rw [gini_eq_finsetSum, gini_eq_finsetSum]
  rw [← List.toFinset_eq_of_perm _ _ hp, ← hp.length_eq]
  congr 1
  refine Finset.sum_congr rfl fun a _ => ?_
  rw [← hp.count_eq a]

theorem gini_perm_invariant_witness :
    (([0, 0, 1] : List ℤ) ≠ []) ∧ ([0, 0, 1] : List ℤ).Perm [1, 0, 0] ∧
      gini ([1, 0, 0] : List ℤ) = gini ([0, 0, 1] : List ℤ) :=
  ⟨by decide, by decide, gini_perm_invariant _ _ (by decide) (by decide)⟩

/-- C10: `gini` is invariant under injective relabeling of the label values:
only the multiset of occurrence counts matters. -/
theorem gini_relabel_invariant {α β : Type} [LinearOrder α] [LinearOrder β]
    (f : α → β) (hf : Function.Injective f) (y : List α) (h : y ≠ []) :
    gini (y.map f) = gini y := by
  rw [gini_eq_finsetSum, gini_eq_finsetSum, List.length_map]
  have himg : (y.map f).toFinset = y.toFinset.image f := by
    ext b
    simp [List.mem_map]
  rw [himg, Finset.sum_image (fun a _ b _ hab => hf hab)]
  congr 1
  refine Finset.sum_congr rfl fun a _ => ?_
  rw [List.count_map_of_injective y f hf a]

theorem gini_relabel_invariant_witness :
    Function.Injective (fun n : ℤ => n + 1) ∧ (([0, 0, 1] : List ℤ) ≠ []) ∧
      gini (([0, 0, 1] : List ℤ).map (fun n : ℤ => n + 1)) =
        gini ([0, 0, 1] : List ℤ) := by
  have hf : Function.Injective (fun n : ℤ => n + 1) := by
    intro a b hab
    simpa using hab
  exact ⟨hf, by decide, gini_relabel_invariant _ hf _ (by decide)⟩

/-- C3: for every non-empty label sequence with `k` distinct labels present,
`gini y` lies in the closed interval `[0, (k-1)/k]`, hence also in `[0, 1]`,
and for `k ≤ 2` it is at most `1/2`. -/
theorem gini_range {α : Type} [LinearOrder α] (y : List α) (h : y ≠ []) :
    0 ≤ gini y ∧
      gini y ≤ ((y.toFinset.card : ℚ) - 1) / (y.toFinset.card : ℚ) ∧
      gini y ≤ 1 ∧
      (y.toFinset.card ≤ 2 → gini y ≤ 1 / 2) := by
  have hlen : y.length ≠ 0 := fun hl => h (List.length_eq_zero.1 hl)
  have hlenQ : (0 : ℚ) < (y.length : ℚ) := by
    exact_mod_cast Nat.pos_of_ne_zero hlen
  have hk0 : 0 < y.toFinset.card :=
    Finset.card_pos.2 ((List.toFinset_nonempty_iff y).2 h)
  have hkQ : (0 : ℚ) < (y.toFinset.card : ℚ) := by exact_mod_cast hk0
  have hsum1 : ∑ a ∈ y.toFinset, ((y.count a : ℚ) / (y.length : ℚ)) = 1 :=
    sum_count_div_length y h
  have hsq_le : ∑ a ∈ y.toFinset, ((y.count a : ℚ) / (y.length : ℚ)) ^ 2 ≤ 1 := by
    calc ∑ a ∈ y.toFinset, ((y.count a : ℚ) / (y.length : ℚ)) ^ 2
        ≤ ∑ a ∈ y.toFinset, ((y.count a : ℚ) / (y.length : ℚ)) := by
          refine Finset.sum_le_sum fun a ha => ?_
          have h0a : 0 ≤ (y.count a : ℚ) / (y.length : ℚ) := by positivity
          have h1a : (y.count a : ℚ) / (y.length : ℚ) ≤ 1 := by
            rw [div_le_one hlenQ]
            exact_mod_cast List.count_le_length a y
          nlinarith
      _ = 1 := hsum1
  have hsq_ge : 1 / (y.toFinset.card : ℚ) ≤
      ∑ a ∈ y.toFinset, ((y.count a : ℚ) / (y.length : ℚ)) ^ 2 := by
    have hcs := sq_sum_le_card_mul_sum_sq (s := y.toFinset)
      (f := fun a => (y.count a : ℚ) / (y.length : ℚ))
    rw [hsum1, one_pow] at hcs
    rw [div_le_iff hkQ]
    nlinarith [hcs]
  have hsq_nonneg : 0 ≤ ∑ a ∈ y.toFinset, ((y.count a : ℚ) / (y.length : ℚ)) ^ 2 :=
    Finset.sum_nonneg fun a _ => sq_nonneg _
  have hfrac : ((y.toFinset.card : ℚ) - 1) / (y.toFinset.card : ℚ) =
      1 - 1 / (y.toFinset.card : ℚ) := by
    field_simp
  rw [gini_eq_finsetSum]
  refine ⟨by linarith, ?_, by linarith, ?_⟩
  · rw [hfrac]
    linarith
  · intro hk2
    have hc2 : (y.toFinset.card : ℚ) ≤ 2 := by exact_mod_cast hk2
    have h12 : (1 : ℚ) / 2 ≤ 1 / (y.toFinset.card : ℚ) :=
      one_div_le_one_div_of_le hkQ hc2
    linarith

theorem gini_range_witness :
    (([0, 0, 1] : List ℤ) ≠ []) ∧
      (0 ≤ gini ([0, 0, 1] : List ℤ) ∧
        gini ([0, 0, 1] : List ℤ) ≤
          ((([0, 0, 1] : List ℤ).toFinset.card : ℚ) - 1) /
            (([0, 0, 1] : List ℤ).toFinset.card : ℚ) ∧
        gini ([0, 0, 1] : List ℤ) ≤ 1 ∧
        (([0, 0, 1] : List ℤ).toFinset.card ≤ 2 →
          gini ([0, 0, 1] : List ℤ) ≤ 1 / 2)) :=
  ⟨by decide, gini_range _ (by decide)⟩

/-- C4: for a non-empty label sequence, `gini y = 0` exactly when `y` has a
single distinct label value, i.e. all its elements are identical. -/
theorem gini_eq_zero_iff {α : Type} [LinearOrder α] (y : List α) (h : y ≠ []) :
    gini y = 0 ↔ y.toFinset.card = 1 := by
  have hlen : y.length ≠ 0 := fun hl => h (List.length_eq_zero.1 hl)
  have hlenQ : (0 : ℚ) < (y.length : ℚ) := by
    exact_mod_cast Nat.pos_of_ne_zero hlen
  have hsum1 : ∑ a ∈ y.toFinset, ((y.count a : ℚ) / (y.length : ℚ)) = 1 :=
    sum_count_div_length y h
  rw [gini_eq_finsetSum]
  constructor
  · intro h0
    have hsq : ∑ a ∈ y.toFinset, ((y.count a : ℚ) / (y.length : ℚ)) ^ 2 = 1 := by
      linarith
    have hzero : ∑ a ∈ y.toFinset,
        (((y.count a : ℚ) / (y.length : ℚ)) -
          ((y.count a : ℚ) / (y.length : ℚ)) ^ 2) = 0 := by
      rw [Finset.sum_sub_distrib, hsum1, hsq, sub_self]
    have hterm : ∀ a ∈ y.toFinset,
        (((y.count a : ℚ) / (y.length : ℚ)) -
          ((y.count a : ℚ) / (y.length : ℚ)) ^ 2) = 0 := by
      refine (Finset.sum_eq_zero_iff_of_nonneg ?_).1 hzero
      intro a ha
      have h0a : 0 ≤ (y.count a : ℚ) / (y.length : ℚ) := by positivity
      have h1a : (y.count a : ℚ) / (y.length : ℚ) ≤ 1 := by
        rw [div_le_one hlenQ]
        exact_mod_cast List.count_le_length a y
      nlinarith
    have hone : ∀ a ∈ y.toFinset, ((y.count a : ℚ) / (y.length : ℚ)) = 1 := by
      intro a ha
      have hposn : 0 < y.count a := List.count_pos_iff.2 (List.mem_toFinset.1 ha)
      have hpos : 0 < (y.count a : ℚ) / (y.length : ℚ) :=
        div_pos (by exact_mod_cast hposn) hlenQ
      have hfac : ((y.count a : ℚ) / (y.length : ℚ)) *
          (1 - ((y.count a : ℚ) / (y.length : ℚ))) = 0 := by
        linear_combination hterm a ha
      rcases mul_eq_zero.1 hfac with hc | hc
      · exact absurd hc (ne_of_gt hpos)
      · linarith
    have hcard : ((y.toFinset.card : ℚ)) = 1 := by
      calc ((y.toFinset.card : ℚ)) = ∑ _a ∈ y.toFinset, (1 : ℚ) := by
            rw [Finset.sum_const, nsmul_eq_mul, mul_one]
        _ = ∑ a ∈ y.toFinset, ((y.count a : ℚ) / (y.length : ℚ)) :=
            (Finset.sum_congr rfl hone).symm
        _ = 1 := hsum1
    exact_mod_cast hcard
  · intro h1
    obtain ⟨a, ha⟩ := Finset.card_eq_one.1 h1
    have hall : ∀ b ∈ y, a = b := by
      intro b hb
      have hmem : b ∈ y.toFinset := List.mem_toFinset.2 hb
      rw [ha, Finset.mem_singleton] at hmem
      exact hmem.symm
    have hcount : y.count a = y.length := List.count_eq_length.2 hall
    rw [ha, Finset.sum_singleton, hcount, div_self (ne_of_gt hlenQ)]
    norm_num

theorem gini_eq_zero_iff_witness :
    (([0, 0, 0, 0] : List ℤ) ≠ []) ∧
      (gini ([0, 0, 0, 0] : List ℤ) = 0 ↔
        ([0, 0, 0, 0] : List ℤ).toFinset.card = 1) :=
  ⟨by decide, gini_eq_zero_iff _ (by decide)⟩

/-- C6: if each of the `k` distinct labels of a non-empty sequence occurs with
empirical frequency exactly `1/k`, then `gini y = (k-1)/k`. -/
theorem gini_uniform {α : Type} [LinearOrder α] (y : List α) (h : y ≠ [])
    (hu : ∀ a ∈ y.toFinset,
      (y.count a : ℚ) / (y.length : ℚ) = 1 / (y.toFinset.card : ℚ)) :
    gini y = ((y.toFinset.card : ℚ) - 1) / (y.toFinset.card : ℚ) := by
  have hk0 : 0 < y.toFinset.card :=
    Finset.card_pos.2 ((List.toFinset_nonempty_iff y).2 h)
  have hkQ : ((y.toFinset.card : ℚ)) ≠ 0 := by
    exact_mod_cast Nat.pos_iff_ne_zero.1 hk0
  rw [gini_eq_finsetSum]
  rw [Finset.sum_congr rfl (fun a ha => by rw [hu a ha])]
  rw [Finset.sum_const, nsmul_eq_mul]
  field_simp
  ring

theorem gini_uniform_witness :
    (∀ a ∈ ([0, 1, 2] : List ℤ).toFinset,
        ((([0, 1, 2] : List ℤ).count a : ℚ) / ((([0, 1, 2] : List ℤ).length : ℚ)) =
          1 / ((([0, 1, 2] : List ℤ).toFinset.card : ℚ)))) ∧
      gini ([0, 1, 2] : List ℤ) =
        (((([0, 1, 2] : List ℤ).toFinset.card : ℚ)) - 1) /
          ((([0, 1, 2] : List ℤ).toFinset.card : ℚ)) := by
  have hu : ∀ a ∈ ([0, 1, 2] : List ℤ).toFinset,
      ((([0, 1, 2] : List ℤ).count a : ℚ) / ((([0, 1, 2] : List ℤ).length : ℚ)) =
        1 / ((([0, 1, 2] : List ℤ).toFinset.card : ℚ))) := by
    have h3 : ([0, 1, 2] : List ℤ).toFinset = {0, 1, 2} := by decide
    intro a ha
    rw [h3] at ha
    fin_cases ha <;> norm_num
  exact ⟨hu, gini_uniform _ (by decide) hu⟩

end GiniImpurity
